import Mathlib

/-!
Shallow embedding of the backend pool and peer-selection core of
`load_balancer_go` (`src/main.go`), together with theorems settling the
specification claims about it.

Modelling conventions:
* A `Backend` keeps the fields observable by the selection algorithm:
  the target `url` (Go `URL`, kept as a string) and the liveness flag
  `alive` (Go `Alive`).  The `sync.RWMutex` and the `ReverseProxy`
  handle have no sequential observable content and are omitted.
* The `uint64` rotation counter `current` is a `Nat` together with
  explicit reduction modulo `2 ^ 64` wherever the Go code performs
  wrapping `uint64` arithmetic (`atomic.AddUint64`).
* Stateful methods become explicit state-passing functions returning
  the new `ServerPool`.
* `url.Parse` is Go standard library (external to this repository); its
  success/failure on a given string is abstracted as a predicate
  `parseOk : String → Bool`, universally quantified in the theorems.
  `log.Fatalf` (process abort) is modelled by `Option`: `none` means
  startup aborted before serving.
-/

namespace LoadBalancer

/-- Go `type Backend struct { URL *url.URL; Alive bool; ... }`:
the fields the selection algorithm reads. -/
structure Backend where
  url : String
  alive : Bool
deriving DecidableEq, Repr

/-- Placeholder backend used as the (never semantically relevant)
default of `List.getD`; Go slice indexing `s.backends[idx]` is always
in bounds at the places we use it. -/
def dfltB : Backend := ⟨"", false⟩

/-- Go `func (b *Backend) SetAlive(alive bool)`: writes the liveness
flag (the mutex only guards the write and is not observable
sequentially). -/
def SetAlive (b : Backend) (alive : Bool) : Backend :=
  { b with alive := alive }

/-- Go `func (b *Backend) IsAlive() bool`: reads the liveness flag. -/
def IsAlive (b : Backend) : Bool :=
  b.alive

/-- Go `type ServerPool struct { backends []*Backend; current uint64 }`. -/
structure ServerPool where
  backends : List Backend
  current : Nat
deriving DecidableEq, Repr

/-- `2 ^ 64`, the modulus of Go `uint64` arithmetic. -/
def U64 : Nat := 2 ^ 64

/-- Go `func (s *ServerPool) AddBackend(b *Backend)`: append. -/
def AddBackend (s : ServerPool) (b : Backend) : ServerPool :=
  { s with backends := s.backends ++ [b] }

/-- Go `func (s *ServerPool) NextIndex() int`:
`int(atomic.AddUint64(&s.current, 1) % uint64(len(s.backends)))`.
`atomic.AddUint64` increments with `uint64` wrap-around and returns the
post-increment value; the method returns that value modulo the pool
size and leaves the incremented counter in the state. -/
def NextIndex (s : ServerPool) : Nat × ServerPool :=
  let cur := (s.current + 1) % U64
  (cur % s.backends.length, { s with current := cur })

/-- The scan loop of `GetNextPeer`:
`for i := 0; i < length; i++ { idx := (next + i) % length; if s.backends[idx].IsAlive() { ... return ... } }`,
rendered with the remaining iteration count `fuel` (the loop runs while
`i < length`, so it is entered with `fuel = length` and `i = 0` and
`fuel` counts the iterations still allowed).  Returns the selected
slice index `idx` together with the loop counter `i` at selection,
or `none` when the loop runs to completion. -/
def scanAlive (bs : List Backend) (length next i : Nat) : Nat → Option (Nat × Nat)
  | 0 => none
  | fuel + 1 =>
    let idx := (next + i) % length
    if IsAlive (bs.getD idx dfltB) then some (idx, i)
    else scanAlive bs length next (i + 1) fuel

/-- Go `func (s *ServerPool) GetNextPeer() *Backend` (state-passing):
guard the empty pool, take the candidate offset from `NextIndex`, scan
up to `length` positions circularly, and on a hit with `i != 0`
overwrite the counter with the selected index
(`atomic.StoreUint64(&s.current, uint64(idx))`). -/
def GetNextPeer (s : ServerPool) : Option Backend × ServerPool :=
  let length := s.backends.length
  if length = 0 then (none, s)
  else
    let p := NextIndex s
    let next := p.1
    let s1 := p.2
    match scanAlive s1.backends length next 0 length with
    | some (idx, i) =>
      let s2 := if i ≠ 0 then { s1 with current := idx } else s1
      (some (s1.backends.getD idx dfltB), s2)
    | none => (none, s1)

/-- The results of `n` consecutive sequential `GetNextPeer` calls. -/
def selectSeq : ServerPool → Nat → List (Option Backend)
  | _, 0 => []
  | s, n + 1 =>
    let r := GetNextPeer s
    r.1 :: selectSeq r.2 n

/-- The pool state after `n` consecutive sequential `GetNextPeer` calls. -/
def runPool : ServerPool → Nat → ServerPool
  | s, 0 => s
  | s, n + 1 => runPool (GetNextPeer s).2 n

/-- ASCII whitespace test used by `trimSpace` (the whitespace classes
relevant to the claims; Go `unicode.IsSpace` additionally accepts some
Unicode space characters). -/
def isSpaceChar (c : Char) : Bool :=
  c = ' ' || c = '\t' || c = '\n' || c = '\r'

/-- Go `strings.TrimSpace`: drop leading and trailing whitespace. -/
def trimSpace (s : String) : String :=
  ⟨((s.data.dropWhile isSpaceChar).reverse.dropWhile isSpaceChar).reverse⟩

/-- Splitting a character list on `,` (every comma separates; no
collapsing of adjacent separators), as Go `strings.Split(s, ",")` does. -/
def splitCommaChars : List Char → List (List Char)
  | [] => [[]]
  | c :: rest =>
    if c = ',' then [] :: splitCommaChars rest
    else
      match splitCommaChars rest with
      | [] => [[c]]
      | g :: gs => (c :: g) :: gs

/-- Go `strings.Split(s, ",")` on a string. -/
def splitOnComma (s : String) : List String :=
  (splitCommaChars s.data).map fun cs => ⟨cs⟩

/-- The registration loop of Go `main`:
`for _, raw := range strings.Split(backendList, ",") { raw = strings.TrimSpace(raw); if raw == "" { continue }; u, err := url.Parse(raw); if err != nil { log.Fatalf(...) }; pool.AddBackend(&Backend{URL: u, Alive: true, ...}) }`.
`none` models `log.Fatalf` aborting startup. -/
def buildPool (parseOk : String → Bool) : List String → Option (List Backend)
  | [] => some []
  | raw :: rest =>
    let t := trimSpace raw
    if t = "" then buildPool parseOk rest
    else if parseOk t then
      (buildPool parseOk rest).map fun bs => Backend.mk t true :: bs
    else none

/-- Startup configuration processing of Go `main` (load-balancer mode):
fatal when the `-backends` flag is the empty string, then the
registration loop over the comma-separated pieces; on success the
serving loop is reached with the constructed pool (zero-valued counter). -/
def startup (parseOk : String → Bool) (backendList : String) : Option ServerPool :=
  if backendList = "" then none
  else (buildPool parseOk (splitOnComma backendList)).map fun bs => ⟨bs, 0⟩

end LoadBalancer

namespace LoadBalancer

/-! ### Helper lemmas about the scan loop -/

theorem getD_mem_of_lt : ∀ (l : List Backend) (i : Nat), i < l.length → l.getD i dfltB ∈ l
  | [], i, h => by simp at h
  | a :: l, 0, _ => by simp
  | a :: l, i + 1, h => by
    rw [List.getD_cons_succ]
    exact List.mem_cons_of_mem a (getD_mem_of_lt l i (by simpa using h))

theorem scanAlive_sound (bs : List Backend) (n next : Nat) :
    ∀ fuel i idx j, scanAlive bs n next i fuel = some (idx, j) →
      i ≤ j ∧ j < i + fuel ∧ idx = (next + j) % n ∧
        (bs.getD idx dfltB).alive = true := by
  intro fuel
  induction fuel with
  | zero => intro i idx j h; simp [scanAlive] at h
  | succ fuel ih =>
    intro i idx j h
    simp only [scanAlive] at h
    split at h
    · rename_i ha
      simp only [Option.some.injEq, Prod.mk.injEq] at h
      obtain ⟨hidx, hj⟩ := h
      subst hidx; subst hj
      refine ⟨Nat.le_refl i, by omega, rfl, ?_⟩
      simpa [IsAlive] using ha
    · rename_i ha
      obtain ⟨h1, h2, h3, h4⟩ := ih (i + 1) idx j h
      exact ⟨by omega, by omega, h3, h4⟩

theorem scanAlive_finds (bs : List Backend) (n next : Nat) :
    ∀ fuel i, (∃ j, j < fuel ∧ (bs.getD ((next + (i + j)) % n) dfltB).alive = true) →
      (scanAlive bs n next i fuel).isSome = true := by
  intro fuel
  induction fuel with
  | zero => rintro i ⟨j, hj, _⟩; omega
  | succ fuel ih =>
    rintro i ⟨j, hj, halive⟩
    simp only [scanAlive]
    split
    · rfl
    · rename_i hdead
      apply ih (i + 1)
      cases j with
      | zero =>
        exfalso
        apply hdead
        simpa [IsAlive] using halive
      | succ j =>
        refine ⟨j, by omega, ?_⟩
        have e : i + 1 + j = i + (j + 1) := by omega
        rw [e]
        exact halive

theorem scanAlive_allDead {bs : List Backend} (h : ∀ b ∈ bs, b.alive = false) :
    ∀ fuel next i, scanAlive bs bs.length next i fuel = none := by
  have hdead : ∀ k, (bs.getD k dfltB).alive = false := by
    intro k
    by_cases hk : k < bs.length
    · exact h _ (getD_mem_of_lt bs k hk)
    · rw [List.getD_eq_default _ _ (by omega)]
      rfl
  intro fuel
  induction fuel with
  | zero => intro next i; rfl
  | succ fuel ih =>
    intro next i
    simp only [scanAlive]
    rw [if_neg (by simp only [IsAlive, hdead]; simp)]
    exact ih next (i + 1)

theorem mod_cover {n next k : Nat} (hnext : next < n) (hk : k < n) :
    ∃ j, j < n ∧ (next + j) % n = k := by
  refine ⟨(k + n - next) % n, Nat.mod_lt _ (by omega), ?_⟩
  have h1 : next + (k + n - next) = k + n := by omega
  rw [Nat.add_mod_mod, h1, Nat.add_mod_right]
  exact Nat.mod_eq_of_lt hk

/-! ### Characterizations of GetNextPeer -/

theorem getNextPeer_eq (s : ServerPool) (h0 : ¬ s.backends.length = 0) :
    GetNextPeer s =
      match scanAlive s.backends s.backends.length
          (((s.current + 1) % U64) % s.backends.length) 0 s.backends.length with
      | some (idx, i) =>
        (some (s.backends.getD idx dfltB),
          if i ≠ 0 then { s with current := idx }
          else { s with current := (s.current + 1) % U64 })
      | none => (none, { s with current := (s.current + 1) % U64 }) := by
  simp only [GetNextPeer, NextIndex, h0, if_false]

theorem getNextPeer_scan_some (s : ServerPool) (h0 : ¬ s.backends.length = 0)
    {idx i : Nat}
    (hscan : scanAlive s.backends s.backends.length
        (((s.current + 1) % U64) % s.backends.length) 0 s.backends.length = some (idx, i)) :
    GetNextPeer s =
      (some (s.backends.getD idx dfltB),
        if i ≠ 0 then { s with current := idx }
        else { s with current := (s.current + 1) % U64 }) := by
  rw [getNextPeer_eq s h0, hscan]

theorem getNextPeer_scan_none (s : ServerPool) (h0 : ¬ s.backends.length = 0)
    (hscan : scanAlive s.backends s.backends.length
        (((s.current + 1) % U64) % s.backends.length) 0 s.backends.length = none) :
    GetNextPeer s = (none, { s with current := (s.current + 1) % U64 }) := by
  rw [getNextPeer_eq s h0, hscan]

theorem getNextPeer_empty (s : ServerPool) (h : s.backends.length = 0) :
    GetNextPeer s = (none, s) := by
  simp [GetNextPeer, h]

theorem getNextPeer_backends (s : ServerPool) :
    (GetNextPeer s).2.backends = s.backends := by
  by_cases h0 : s.backends.length = 0
  · rw [getNextPeer_empty s h0]
  · rw [getNextPeer_eq s h0]
    split
    · dsimp only
      split <;> rfl
    · rfl

theorem getD_eq_get_of_lt :
    ∀ (l : List Backend) (i : Nat) (h : i < l.length), l.getD i dfltB = l.get ⟨i, h⟩
  | [], i, h => by simp at h
  | a :: l, 0, _ => rfl
  | a :: l, i + 1, h => by
    rw [List.getD_cons_succ]
    exact getD_eq_get_of_lt l i (by simpa using h)

theorem mem_iff_getD (l : List Backend) (b : Backend) :
    b ∈ l ↔ ∃ k, k < l.length ∧ l.getD k dfltB = b := by
  constructor
  · intro hb
    obtain ⟨k, hk, hbk⟩ := List.mem_iff_getElem.mp hb
    refine ⟨k, hk, ?_⟩
    rw [getD_eq_get_of_lt l k hk]
    simpa [List.get_eq_getElem] using hbk
  · rintro ⟨k, hk, rfl⟩
    exact getD_mem_of_lt l k hk

theorem getNextPeer_some_alive {s : ServerPool} {b : Backend}
    (h : (GetNextPeer s).1 = some b) : b.alive = true := by
  by_cases h0 : s.backends.length = 0
  · rw [getNextPeer_empty s h0] at h
    simp at h
  · rcases hscan : scanAlive s.backends s.backends.length
        (((s.current + 1) % U64) % s.backends.length) 0 s.backends.length with _ | ⟨idx, i⟩
    · rw [getNextPeer_scan_none s h0 hscan] at h
      simp at h
    · rw [getNextPeer_scan_some s h0 hscan] at h
      simp only [Option.some.injEq] at h
      obtain ⟨_, _, _, halive⟩ := scanAlive_sound _ _ _ _ _ _ _ hscan
      rw [← h]
      exact halive

theorem getNextPeer_none_iff (s : ServerPool) :
    (GetNextPeer s).1 = none ↔ ∀ b ∈ s.backends, b.alive = false := by
  by_cases h0 : s.backends.length = 0
  · have hb : s.backends = [] := List.length_eq_zero.mp h0
    rw [getNextPeer_empty s h0, hb]
    simp
  · constructor
    · intro hnone b hb
      by_contra hba
      have halive : b.alive = true := by revert hba; cases b.alive <;> simp
      obtain ⟨k, hk, hbk⟩ := (mem_iff_getD s.backends b).mp hb
      have hnext : ((s.current + 1) % U64) % s.backends.length < s.backends.length :=
        Nat.mod_lt _ (by omega)
      obtain ⟨j, hj, hjk⟩ := mod_cover hnext hk
      have hfind : (scanAlive s.backends s.backends.length
          (((s.current + 1) % U64) % s.backends.length) 0 s.backends.length).isSome = true := by
        apply scanAlive_finds
        refine ⟨j, hj, ?_⟩
        rw [Nat.zero_add, hjk, hbk]
        exact halive
      rcases hscan : scanAlive s.backends s.backends.length
          (((s.current + 1) % U64) % s.backends.length) 0 s.backends.length with _ | ⟨idx, i⟩
      · rw [hscan] at hfind
        simp at hfind
      · rw [getNextPeer_scan_some s h0 hscan] at hnone
        simp at hnone
    · intro hdead
      rw [getNextPeer_scan_none s h0 (scanAlive_allDead hdead _ _ _)]

theorem scanAlive_head (bs : List Backend) (n next fuel : Nat) (hn : next < n)
    (halive : IsAlive (bs.getD next dfltB) = true) :
    scanAlive bs n next 0 (fuel + 1) = some (next, 0) := by
  simp only [scanAlive]
  rw [Nat.add_zero, Nat.mod_eq_of_lt hn, if_pos halive]

theorem getNextPeer_allAlive (s : ServerPool) (h0 : ¬ s.backends.length = 0)
    (ha : ∀ b ∈ s.backends, b.alive = true) :
    GetNextPeer s =
      (some (s.backends.getD (((s.current + 1) % U64) % s.backends.length) dfltB),
        { s with current := (s.current + 1) % U64 }) := by
  have hscan : scanAlive s.backends s.backends.length
      (((s.current + 1) % U64) % s.backends.length) 0 s.backends.length =
      some ((((s.current + 1) % U64) % s.backends.length), 0) := by
    cases hL : s.backends.length with
    | zero => omega
    | succ m =>
      apply scanAlive_head
      · exact Nat.mod_lt _ (Nat.succ_pos m)
      · have hnext : ((s.current + 1) % U64) % (m + 1) < s.backends.length := by
          rw [hL]; exact Nat.mod_lt _ (Nat.succ_pos m)
        simpa [IsAlive] using ha _ (getD_mem_of_lt _ _ hnext)
  rw [getNextPeer_scan_some s h0 hscan]
  simp

/-! ### Round-robin rotation under an all-healthy pool -/

theorem selectSeq_allAlive (k : Nat) :
    ∀ (s : ServerPool), ¬ s.backends.length = 0 →
      (∀ b ∈ s.backends, b.alive = true) →
      s.current + k < U64 →
      selectSeq s k =
        (List.range k).map
          (fun i => some (s.backends.getD ((s.current + 1 + i) % s.backends.length) dfltB)) := by
  induction k with
  | zero => intro s _ _ _; rfl
  | succ k ih =>
    intro s h0 ha hlt
    have hcur : (s.current + 1) % U64 = s.current + 1 := Nat.mod_eq_of_lt (by omega)
    have hstep := getNextPeer_allAlive s h0 ha
    rw [hcur] at hstep
    simp only [selectSeq]
    rw [hstep]
    dsimp only
    rw [ih { s with current := s.current + 1 } (by simpa using h0) (by simpa using ha)
        (by simpa using by omega : ({ s with current := s.current + 1 } : ServerPool).current + k < U64)]
    dsimp only
    rw [List.range_succ_eq_map]
    simp only [List.map_cons, List.map_map, Nat.add_zero]
    congr 1
    have hfun :
        ((fun i => some (s.backends.getD ((s.current + 1 + i) % s.backends.length) dfltB))
            ∘ Nat.succ)
          = fun i =>
              some (s.backends.getD ((s.current + 1 + 1 + i) % s.backends.length) dfltB) := by
      funext i
      simp only [Function.comp, Nat.succ_eq_add_one]
      have e : s.current + 1 + (i + 1) = s.current + 1 + 1 + i := by omega
      rw [e]
    rw [hfun]

theorem range_map_getD :
    ∀ (l : List Backend), (List.range l.length).map (fun i => l.getD i dfltB) = l
  | [] => rfl
  | a :: l => by
    rw [List.length_cons, List.range_succ_eq_map]
    simp only [List.map_cons, List.getD_cons_zero, List.map_map]
    congr 1
    have hc : ((fun i => (a :: l).getD i dfltB) ∘ Nat.succ) = fun i => l.getD i dfltB := by
      funext i
      simp [List.getD_cons_succ]
    rw [hc, range_map_getD l]

theorem rot_perm_range {n a : Nat} (hn : 0 < n) :
    List.Perm ((List.range n).map fun i => (a + i) % n) (List.range n) := by
  have hnodup : ((List.range n).map fun i => (a + i) % n).Nodup := by
    apply List.Nodup.map_on ?_ (List.nodup_range n)
    intro x hx y hy hxy
    rw [List.mem_range] at hx hy
    have hmod : x % n = y % n := Nat.ModEq.add_left_cancel' a hxy
    rwa [Nat.mod_eq_of_lt hx, Nat.mod_eq_of_lt hy] at hmod
  rw [← Multiset.coe_eq_coe]
  apply Multiset.Nodup.toFinset_inj
  · exact Multiset.coe_nodup.mpr hnodup
  · exact Multiset.coe_nodup.mpr (List.nodup_range n)
  · apply Finset.eq_of_subset_of_card_le
    · intro x hx
      simp only [Multiset.mem_toFinset, Multiset.mem_coe, List.mem_map, List.mem_range] at hx
      obtain ⟨i, hi, rfl⟩ := hx
      simp only [Multiset.mem_toFinset, Multiset.mem_coe, List.mem_range]
      exact Nat.mod_lt _ hn
    · have c1 : (Multiset.toFinset
          ((((List.range n).map fun i => (a + i) % n) : List Nat) : Multiset Nat)).card = n := by
        rw [Multiset.toFinset_card_of_nodup (Multiset.coe_nodup.mpr hnodup)]
        simp
      have c2 : (Multiset.toFinset ((List.range n : List Nat) : Multiset Nat)).card = n := by
        rw [Multiset.toFinset_card_of_nodup (Multiset.coe_nodup.mpr (List.nodup_range n))]
        simp
      omega

theorem selectSeq_allAlive_perm (s : ServerPool) (h0 : ¬ s.backends.length = 0)
    (ha : ∀ b ∈ s.backends, b.alive = true)
    (hlt : s.current + s.backends.length < U64) :
    List.Perm (selectSeq s s.backends.length) (s.backends.map some) := by
  rw [selectSeq_allAlive s.backends.length s h0 ha hlt]
  have h1 : (List.range s.backends.length).map
        (fun i => some (s.backends.getD ((s.current + 1 + i) % s.backends.length) dfltB))
      = ((List.range s.backends.length).map fun i => (s.current + 1 + i) % s.backends.length).map
        (fun k => some (s.backends.getD k dfltB)) := by
    rw [List.map_map]
    rfl
  have h2 : s.backends.map some
      = (List.range s.backends.length).map (fun k => some (s.backends.getD k dfltB)) := by
    conv_lhs => rw [← range_map_getD s.backends]
    rw [List.map_map]
    rfl
  rw [h1, h2]
  exact (rot_perm_range (by omega)).map fun k => some (s.backends.getD k dfltB)

/-! ### Startup configuration lemmas -/

theorem buildPool_allAlive (parseOk : String → Bool) :
    ∀ (ps : List String) (bs : List Backend), buildPool parseOk ps = some bs →
      ∀ b ∈ bs, b.alive = true := by
  intro ps
  induction ps with
  | nil =>
    intro bs h b hb
    simp only [buildPool, Option.some.injEq] at h
    subst h
    simp at hb
  | cons raw rest ih =>
    intro bs h b hb
    simp only [buildPool] at h
    split at h
    · exact ih bs h b hb
    · split at h
      · rcases hr : buildPool parseOk rest with _ | bs2
        · rw [hr] at h
          simp at h
        · rw [hr] at h
          injection h with h2
          subst h2
          rcases List.mem_cons.mp hb with hb1 | hb2
          · rw [hb1]
          · exact ih bs2 hr b hb2
      · simp at h

theorem buildPool_none_of_bad (parseOk : String → Bool) :
    ∀ (ps : List String) (p : String), p ∈ ps → ¬ trimSpace p = "" →
      parseOk (trimSpace p) = false → buildPool parseOk ps = none := by
  intro ps
  induction ps with
  | nil =>
    intro p hp
    simp at hp
  | cons raw rest ih =>
    intro p hp hne hbad
    rcases List.mem_cons.mp hp with hp1 | hp2
    · subst hp1
      simp only [buildPool]
      rw [if_neg hne, if_neg (by simp [hbad])]
    · simp only [buildPool]
      split
      · exact ih p hp2 hne hbad
      · split
        · rw [ih p hp2 hne hbad]
          rfl
        · rfl

theorem buildPool_nonempty_iff (parseOk : String → Bool) :
    ∀ (ps : List String) (bs : List Backend), buildPool parseOk ps = some bs →
      (¬ bs = [] ↔ ∃ p ∈ ps, ¬ trimSpace p = "") := by
  intro ps
  induction ps with
  | nil =>
    intro bs h
    simp only [buildPool, Option.some.injEq] at h
    subst h
    simp
  | cons raw rest ih =>
    intro bs h
    simp only [buildPool] at h
    split at h
    · rename_i hte
      rw [ih bs h]
      simp only [List.mem_cons]
      constructor
      · rintro ⟨p, hp, hne⟩
        exact ⟨p, Or.inr hp, hne⟩
      · rintro ⟨p, hp1 | hp2, hne⟩
        · subst hp1
          exact absurd hte hne
        · exact ⟨p, hp2, hne⟩
    · rename_i hte
      split at h
      · rcases hr : buildPool parseOk rest with _ | bs2
        · rw [hr] at h
          simp at h
        · rw [hr] at h
          injection h with h2
          subst h2
          constructor
          · intro _
            exact ⟨raw, List.mem_cons_self raw rest, hte⟩
          · intro _
            simp
      · simp at h

/-! ### Claim theorems -/

/-- C1: `GetNextPeer` never returns a backend whose liveness flag was
false at the moment of the `IsAlive` check performed during that
selection; over any number of consecutive selections, every returned
backend was observed alive, so a backend marked unhealthy is never
returned. -/
theorem selection_skips_unhealthy :
    ∀ (n : Nat) (s : ServerPool) (b : Backend),
      some b ∈ selectSeq s n → b.alive = true := by
  intro n
  induction n with
  | zero =>
    intro s b hb
    simp [selectSeq] at hb
  | succ n ih =>
    intro s b hb
    simp only [selectSeq] at hb
    rcases List.mem_cons.mp hb with hb1 | hb2
    · exact getNextPeer_some_alive hb1.symm
    · exact ih _ b hb2

/-- Witness for C1 at a concrete input: the pool `[{url := "a", alive := true}]`
with counter `0`; its single selection is in the selection sequence, so the
theorem yields that the returned backend is alive. -/
theorem selection_skips_unhealthy_witness :
    (Backend.mk "a" true).alive = true :=
  selection_skips_unhealthy 1 ⟨[⟨"a", true⟩], 0⟩ ⟨"a", true⟩ (by decide)

/-- C2: `GetNextPeer` returns `none` if and only if no registered
backend is healthy; with zero registered backends it returns `none`
immediately with the pool untouched (the modulo-by-zero of `NextIndex`
unreachable because the empty-pool guard returns first). -/
theorem selection_none_iff_no_healthy (s : ServerPool) :
    (s.backends = [] → GetNextPeer s = (none, s))
    ∧ ((GetNextPeer s).1 = none ↔ ∀ b ∈ s.backends, b.alive = false) :=
  ⟨fun h => getNextPeer_empty s (by simp [h]), getNextPeer_none_iff s⟩

/-- Witness for C2 at concrete inputs: the empty pool returns `none`
with unchanged state, and a one-backend pool whose backend is dead
returns `none`. -/
theorem selection_none_iff_no_healthy_witness :
    GetNextPeer ⟨[], 5⟩ = (none, ⟨[], 5⟩)
    ∧ (GetNextPeer ⟨[⟨"a", false⟩], 3⟩).1 = none :=
  ⟨(selection_none_iff_no_healthy ⟨[], 5⟩).1 (by decide),
   (selection_none_iff_no_healthy ⟨[⟨"a", false⟩], 3⟩).2.mpr (by decide)⟩

/-- C3: from pool `[A, B, C]`, all healthy, counter `0`, four calls
return `B, C, A, B` and leave the counter at `4`; after `SetAlive B false`,
call 5 has candidate offset `2` (returns `C`), call 6 has offset `0`
(returns `A`), and call 7 is the first whose candidate offset lands on
`B`'s position `1`: it returns `C` instead and leaves the counter at
`C`'s index `2`, not `B`'s index `1`. -/
theorem round_robin_scenario_abc :
    selectSeq ⟨[⟨"A", true⟩, ⟨"B", true⟩, ⟨"C", true⟩], 0⟩ 4 =
        [some ⟨"B", true⟩, some ⟨"C", true⟩, some ⟨"A", true⟩, some ⟨"B", true⟩]
    ∧ runPool ⟨[⟨"A", true⟩, ⟨"B", true⟩, ⟨"C", true⟩], 0⟩ 4 =
        ⟨[⟨"A", true⟩, ⟨"B", true⟩, ⟨"C", true⟩], 4⟩
    ∧ selectSeq ⟨[⟨"A", true⟩, SetAlive ⟨"B", true⟩ false, ⟨"C", true⟩], 4⟩ 3 =
        [some ⟨"C", true⟩, some ⟨"A", true⟩, some ⟨"C", true⟩]
    ∧ runPool ⟨[⟨"A", true⟩, SetAlive ⟨"B", true⟩ false, ⟨"C", true⟩], 4⟩ 3 =
        ⟨[⟨"A", true⟩, ⟨"B", false⟩, ⟨"C", true⟩], 2⟩ := by
  refine ⟨by decide, by decide, by decide, by decide⟩

/-- C7: for every non-empty pool, `NextIndex` returns the
post-increment counter value (wrapping modulo `2 ^ 64`) reduced modulo
the pool size, and stores exactly the wrapped post-increment value. -/
theorem nextIndex_spec (s : ServerPool) (h0 : 0 < s.backends.length) :
    (NextIndex s).1 = ((s.current + 1) % U64) % s.backends.length
    ∧ (NextIndex s).2 = { s with current := (s.current + 1) % U64 } :=
  ⟨rfl, rfl⟩

/-- Witness for C7 at a concrete input: a one-backend pool with
counter `5`. -/
theorem nextIndex_spec_witness :
    (NextIndex ⟨[⟨"a", true⟩], 5⟩).1 = ((5 + 1) % U64) % 1
    ∧ (NextIndex ⟨[⟨"a", true⟩], 5⟩).2 = ⟨[⟨"a", true⟩], (5 + 1) % U64⟩ :=
  nextIndex_spec ⟨[⟨"a", true⟩], 5⟩ (by decide)

/-- C9: on a non-empty pool with no healthy backend, `GetNextPeer`
returns `none` and still leaves the rotation counter advanced by the
wrapping `uint64` increment (the increment is not rolled back on the
`none` path); nothing else in the pool changes. -/
theorem all_dead_counter_advances (s : ServerPool) (hne : ¬ s.backends = [])
    (hdead : ∀ b ∈ s.backends, b.alive = false) :
    (GetNextPeer s).1 = none
    ∧ (GetNextPeer s).2 = { s with current := (s.current + 1) % U64 } := by
  have h0 : ¬ s.backends.length = 0 := by
    simpa [List.length_eq_zero] using hne
  rw [getNextPeer_scan_none s h0 (scanAlive_allDead hdead _ _ _)]
  exact ⟨rfl, rfl⟩

/-- Witness for C9 at a concrete input: a two-backend pool, both dead,
counter `7`. -/
theorem all_dead_counter_advances_witness :
    (GetNextPeer ⟨[⟨"a", false⟩, ⟨"b", false⟩], 7⟩).1 = none
    ∧ (GetNextPeer ⟨[⟨"a", false⟩, ⟨"b", false⟩], 7⟩).2 =
        ⟨[⟨"a", false⟩, ⟨"b", false⟩], (7 + 1) % U64⟩ :=
  all_dead_counter_advances ⟨[⟨"a", false⟩, ⟨"b", false⟩], 7⟩ (by decide) (by decide)


/-- C4 counterexample: the claimed property fails at a reachable
counter value next to the `uint64` wrap.  With pool `[A, B, C]`, all
healthy, and counter `2 ^ 64 - 2`, the three consecutive calls return
`A, A, B`: backend `A` is returned twice and backend `C` never, so the
`N` calls do not visit each backend exactly once, and the first call
returns index `0` rather than the claimed `(c + 1) % N = 1`
(`2 ^ 64 % 3 = 1`). -/
theorem wrap_duplicate_selection :
    selectSeq ⟨[⟨"A", true⟩, ⟨"B", true⟩, ⟨"C", true⟩], U64 - 2⟩ 3 =
        [some ⟨"A", true⟩, some ⟨"A", true⟩, some ⟨"B", true⟩]
    ∧ (selectSeq ⟨[⟨"A", true⟩, ⟨"B", true⟩, ⟨"C", true⟩], U64 - 2⟩ 3).count
        (some ⟨"A", true⟩) = 2
    ∧ (selectSeq ⟨[⟨"A", true⟩, ⟨"B", true⟩, ⟨"C", true⟩], U64 - 2⟩ 3).count
        (some ⟨"C", true⟩) = 0 :=
  ⟨by decide, by decide, by decide⟩

/-- C4 as amended: for every pool of `N ≥ 1` backends, all healthy, and
every starting counter value `c` such that the counter does not wrap
during the `N` calls (`c + N < 2 ^ 64`), the `N` consecutive sequential
calls return the backends in list order starting at index
`(c + 1) % N` and wrapping circularly, and hence visit each backend
exactly once (the result list is a permutation of the backend list). -/
theorem uniform_rotation_no_wrap (s : ServerPool)
    (h0 : 0 < s.backends.length)
    (ha : ∀ b ∈ s.backends, b.alive = true)
    (hc : s.current + s.backends.length < U64) :
    selectSeq s s.backends.length =
      (List.range s.backends.length).map
        (fun i => some (s.backends.getD ((s.current + 1 + i) % s.backends.length) dfltB))
    ∧ List.Perm (selectSeq s s.backends.length) (s.backends.map some) :=
  ⟨selectSeq_allAlive s.backends.length s (by omega) ha hc,
   selectSeq_allAlive_perm s (by omega) ha hc⟩

/-- Witness for C4-as-amended at a concrete input: pool `[A, B, C]`,
all healthy, counter `0`. -/
theorem uniform_rotation_no_wrap_witness :
    selectSeq ⟨[⟨"A", true⟩, ⟨"B", true⟩, ⟨"C", true⟩], 0⟩ 3 =
      (List.range 3).map
        (fun i => some (([⟨"A", true⟩, ⟨"B", true⟩, ⟨"C", true⟩] : List Backend).getD
          ((0 + 1 + i) % 3) dfltB))
    ∧ List.Perm (selectSeq ⟨[⟨"A", true⟩, ⟨"B", true⟩, ⟨"C", true⟩], 0⟩ 3)
        (([⟨"A", true⟩, ⟨"B", true⟩, ⟨"C", true⟩] : List Backend).map some) :=
  uniform_rotation_no_wrap ⟨[⟨"A", true⟩, ⟨"B", true⟩, ⟨"C", true⟩], 0⟩
    (by decide) (by decide) (by decide)

/-- C5 counterexample: the rotation counter is not monotonically
non-decreasing.  With pool `[A alive, B dead, C dead]` and counter `1`,
the call increments the counter to `2`, finds `C` (offset `2`) dead,
skips to index `0` (backend `A`), and overwrites the counter with `0`,
which is smaller than the starting value `1`. -/
theorem counter_decrease_on_skip :
    (GetNextPeer ⟨[⟨"A", true⟩, ⟨"B", false⟩, ⟨"C", false⟩], 1⟩).2.current <
      (ServerPool.mk [⟨"A", true⟩, ⟨"B", false⟩, ⟨"C", false⟩] 1).current := by
  decide

/-- C5 as amended: the counter left by a call is not always larger; it
is exactly one of: the old value (empty pool), the wrapped increment
`(c + 1) % 2 ^ 64` (candidate healthy or no healthy backend), or the
index of the selected backend after a skip — a value below the pool
size, which can be smaller than the previous counter. -/
theorem counter_post_value (s : ServerPool) :
    (s.backends.length = 0 ∧ (GetNextPeer s).2.current = s.current)
    ∨ (GetNextPeer s).2.current = (s.current + 1) % U64
    ∨ ((GetNextPeer s).2.current < s.backends.length
        ∧ (GetNextPeer s).1 = some (s.backends.getD ((GetNextPeer s).2.current) dfltB)) := by
  by_cases h0 : s.backends.length = 0
  · left
    rw [getNextPeer_empty s h0]
    exact ⟨h0, rfl⟩
  · rcases hscan : scanAlive s.backends s.backends.length
        (((s.current + 1) % U64) % s.backends.length) 0 s.backends.length with _ | ⟨idx, i⟩
    · right; left
      rw [getNextPeer_scan_none s h0 hscan]
    · have hgp := getNextPeer_scan_some s h0 hscan
      obtain ⟨_, hilt, hidx, _⟩ := scanAlive_sound _ _ _ _ _ _ _ hscan
      by_cases hi : i = 0
      · right; left
        subst hi
        rw [hgp, if_neg (by simp)]
      · right; right
        rw [hgp, if_pos hi]
        refine ⟨?_, rfl⟩
        show idx < s.backends.length
        rw [hidx]
        exact Nat.mod_lt _ (by omega)

/-- C6 counterexample: the flag value `","` passes the initial
non-empty-string check, yet startup succeeds with an empty pool — the
serving loop is reached with zero registered backends, because both
comma-separated pieces are empty after trimming and are skipped rather
than fatal. -/
theorem serving_with_empty_pool :
    ¬ ("," : String) = "" ∧ startup (fun _ => true) "," = some ⟨[], 0⟩ :=
  ⟨by decide, by decide⟩

/-- C6 as amended: an empty `-backends` string is fatal at startup, and
a malformed (non-empty after trimming, unparsable) entry is fatal at
startup; but for a flag value that passes the non-empty-string check
the pool reached by the serving loop is non-empty only when at least
one comma-separated piece is non-empty after trimming — a value such as
`","` reaches serving with an empty pool. -/
theorem startup_checks (parseOk : String → Bool) (backendList : String) :
    (backendList = "" → startup parseOk backendList = none)
    ∧ (∀ p ∈ splitOnComma backendList, ¬ trimSpace p = "" →
        parseOk (trimSpace p) = false → startup parseOk backendList = none)
    ∧ (∀ pl : ServerPool, startup parseOk backendList = some pl →
        (¬ pl.backends = [] ↔ ∃ p ∈ splitOnComma backendList, ¬ trimSpace p = "")) := by
  refine ⟨?_, ?_, ?_⟩
  · intro h
    simp [startup, h]
  · intro p hp hne hbad
    by_cases hbl : backendList = ""
    · simp [startup, hbl]
    · simp only [startup, if_neg hbl]
      rw [buildPool_none_of_bad parseOk _ p hp hne hbad]
      rfl
  · intro pl h
    simp only [startup] at h
    split at h
    · simp at h
    · rcases hbp : buildPool parseOk (splitOnComma backendList) with _ | bs
      · rw [hbp] at h
        simp at h
      · rw [hbp] at h
        injection h with h2
        subst h2
        exact buildPool_nonempty_iff parseOk _ bs hbp

/-- Witness for C6-as-amended at a concrete input: with a parser
rejecting everything, the entry `"x"` makes startup fatal. -/
theorem startup_checks_witness :
    startup (fun _ => false) "x" = none :=
  (startup_checks (fun _ => false) "x").2.1 "x" (by decide) (by decide) (by decide)

/-- C8: when the scan selects position `idx` at loop counter `i`, the
selected position equals the original candidate offset exactly when
`i = 0`; the counter is overwritten with the selected index if and only
if the selected position differs from the candidate offset, and when
the candidate itself is healthy the counter retains exactly the
post-increment value; the backend list never changes. -/
theorem skip_overwrite_iff (s : ServerPool) (idx i : Nat)
    (h0 : 0 < s.backends.length)
    (hscan : scanAlive s.backends s.backends.length
        (((s.current + 1) % U64) % s.backends.length) 0 s.backends.length = some (idx, i)) :
    (GetNextPeer s).1 = some (s.backends.getD idx dfltB)
    ∧ (GetNextPeer s).2.backends = s.backends
    ∧ (idx = ((s.current + 1) % U64) % s.backends.length ↔ i = 0)
    ∧ (GetNextPeer s).2.current =
        (if idx = ((s.current + 1) % U64) % s.backends.length
          then (s.current + 1) % U64 else idx) := by
  have h0n : ¬ s.backends.length = 0 := by omega
  have hnext : ((s.current + 1) % U64) % s.backends.length < s.backends.length :=
    Nat.mod_lt _ h0
  obtain ⟨hi0, hilt, hidx, halive⟩ := scanAlive_sound _ _ _ _ _ _ _ hscan
  have hgp := getNextPeer_scan_some s h0n hscan
  have hiff : idx = ((s.current + 1) % U64) % s.backends.length ↔ i = 0 := by
    constructor
    · intro he
      by_cases hcase : ((s.current + 1) % U64) % s.backends.length + i < s.backends.length
      · have hmod : (((s.current + 1) % U64) % s.backends.length + i) % s.backends.length
            = ((s.current + 1) % U64) % s.backends.length + i := Nat.mod_eq_of_lt hcase
        rw [hmod] at hidx
        omega
      · have hge : s.backends.length ≤ ((s.current + 1) % U64) % s.backends.length + i := by
          omega
        have hlt2 : ((s.current + 1) % U64) % s.backends.length + i - s.backends.length
            < s.backends.length := by omega
        have hmod : (((s.current + 1) % U64) % s.backends.length + i) % s.backends.length
            = ((s.current + 1) % U64) % s.backends.length + i - s.backends.length := by
          rw [Nat.mod_eq_sub_mod hge, Nat.mod_eq_of_lt hlt2]
        rw [hmod] at hidx
        omega
    · intro he
      subst he
      rw [hidx, Nat.add_zero, Nat.mod_eq_of_lt hnext]
  refine ⟨by rw [hgp], getNextPeer_backends s, hiff, ?_⟩
  rw [hgp]
  dsimp only
  by_cases hi : i = 0
  · subst hi
    rw [if_neg (by simp), if_pos (hiff.mpr rfl)]
  · rw [if_pos hi, if_neg (fun he => hi (hiff.mp he))]

/-- Witness for C8 at a concrete input: pool `[a dead, b alive]` with
counter `1`; the candidate offset is `0`, position `0` is dead, the
scan selects position `1` at loop counter `1`, so the counter is
overwritten with the selected index `1`. -/
theorem skip_overwrite_iff_witness :
    (GetNextPeer ⟨[⟨"a", false⟩, ⟨"b", true⟩], 1⟩).1 =
        some (([⟨"a", false⟩, ⟨"b", true⟩] : List Backend).getD 1 dfltB)
    ∧ (GetNextPeer ⟨[⟨"a", false⟩, ⟨"b", true⟩], 1⟩).2.backends =
        ([⟨"a", false⟩, ⟨"b", true⟩] : List Backend)
    ∧ (1 = ((1 + 1) % U64) % 2 ↔ 1 = 0)
    ∧ (GetNextPeer ⟨[⟨"a", false⟩, ⟨"b", true⟩], 1⟩).2.current =
        (if 1 = ((1 + 1) % U64) % 2 then (1 + 1) % U64 else 1) :=
  skip_overwrite_iff ⟨[⟨"a", false⟩, ⟨"b", true⟩], 1⟩ 1 1 (by decide) (by decide)

/-- C10: every backend constructed by startup registration has its
liveness flag true, the counter starts at zero, selection never alters
the backend list (liveness can change only through an explicit
`SetAlive`), and on a non-empty startup pool the first selection
succeeds with a healthy backend. -/
theorem registration_alive (parseOk : String → Bool) (backendList : String)
    (pl : ServerPool) (h : startup parseOk backendList = some pl) :
    (∀ b ∈ pl.backends, b.alive = true)
    ∧ pl.current = 0
    ∧ (GetNextPeer pl).2.backends = pl.backends
    ∧ (¬ pl.backends = [] → ∃ b, (GetNextPeer pl).1 = some b ∧ b.alive = true) := by
  simp only [startup] at h
  split at h
  · simp at h
  · rcases hbp : buildPool parseOk (splitOnComma backendList) with _ | bs
    · rw [hbp] at h
      simp at h
    · rw [hbp] at h
      injection h with h2
      subst h2
      refine ⟨buildPool_allAlive parseOk _ bs hbp, rfl, getNextPeer_backends _, ?_⟩
      intro hne
      have h0 : ¬ (ServerPool.mk bs 0).backends.length = 0 := by
        simpa [List.length_eq_zero] using hne
      have hstep := getNextPeer_allAlive ⟨bs, 0⟩ h0 (buildPool_allAlive parseOk _ bs hbp)
      exact ⟨_, by rw [hstep], getNextPeer_some_alive (by rw [hstep])⟩

/-- Witness for C10 at a concrete input: the flag value `"x"` with a
parser accepting everything registers one alive backend and the first
selection succeeds. -/
theorem registration_alive_witness :
    (∀ b ∈ (ServerPool.mk [⟨"x", true⟩] 0).backends, b.alive = true)
    ∧ (ServerPool.mk [⟨"x", true⟩] 0).current = 0
    ∧ (GetNextPeer ⟨[⟨"x", true⟩], 0⟩).2.backends =
        (ServerPool.mk [⟨"x", true⟩] 0).backends
    ∧ (¬ (ServerPool.mk [⟨"x", true⟩] 0).backends = [] →
        ∃ b, (GetNextPeer ⟨[⟨"x", true⟩], 0⟩).1 = some b ∧ b.alive = true) :=
  registration_alive (fun _ => true) "x" ⟨[⟨"x", true⟩], 0⟩ (by decide)

end LoadBalancer
